import Mathlib

set_option maxHeartbeats 1000000
set_option linter.unnecessarySeqFocus false

/- Shallow embedding of the tabular core of rvtools_extractor.py:
   tables of rows keyed by column name, the MiB/MB-to-GB unit normalizer,
   the per-VM-UUID aggregator with its rule table and error fallback,
   the category merger, and the output column filter. -/

/- Cell values: pandas numeric cells are modelled as rationals, text cells
   as strings, and NaN/missing cells as null. -/
inductive Value where
  | num (q : ℚ)
  | str (s : String)
  | null
deriving DecidableEq, Repr

abbrev Row := List (String × Value)

/- A DataFrame: ordered column names plus rows of (column, value) bindings. -/
structure Table where
  cols : List String
  rows : List Row
deriving DecidableEq, Repr

def Value.isNum : Value → Bool
  | .num _ => true
  | _ => false

def Value.isStr : Value → Bool
  | .str _ => true
  | _ => false

def Value.isNumOrNull : Value → Bool
  | .str _ => false
  | _ => true

def Value.strOf : Value → String
  | .str s => s
  | _ => ""

def Value.qOf : Value → ℚ
  | .num q => q
  | _ => 0

/- Row lookup: value of a column in a row, null when the binding is absent. -/
def Row.getV : Row → String → Value
  | [], _ => Value.null
  | p :: r, c => if p.1 = c then p.2 else Row.getV r c

/- df[c] = v assignment at row level: overwrite an existing binding in place,
   otherwise append the binding at the end. -/
def Row.setV : Row → String → Value → Row
  | [], c, v => [(c, v)]
  | p :: r, c, v => if p.1 = c then (c, v) :: r else p :: Row.setV r c v

def Table.colValues (t : Table) (c : String) : List Value :=
  t.rows.map (fun r => Row.getV r c)

/- df[c] = vs: overwrite the column when present, else append it at the end. -/
def Table.setCol (t : Table) (c : String) (vs : List Value) : Table :=
  ⟨if c ∈ t.cols then t.cols else t.cols ++ [c],
   List.zipWith (fun r v => Row.setV r c v) t.rows vs⟩

/- df.drop(columns=[c]). -/
def Table.dropCol (t : Table) (c : String) : Table :=
  ⟨t.cols.filter (fun x => x ≠ c), t.rows.map (fun r => r.filter (fun p => p.1 ≠ c))⟩

/- pd.api.types.is_numeric_dtype: every cell of the column is a number or NaN. -/
def isNumericCol (t : Table) (c : String) : Bool :=
  (t.colValues c).all Value.isNumOrNull

/- Substring test, modelling Python's `pat in s`. -/
def isInfixB (pat s : List Char) : Bool :=
  s.tails.any (fun t => pat.isPrefixOf t)

def strContains (s pat : String) : Bool := isInfixB pat.data s.data

/- str.lower() on the ASCII column names of the source data. -/
def lowerStr (s : String) : String := ⟨s.data.map Char.toLower⟩

/- Python str.replace: replace every non-overlapping occurrence, left to
   right. The counter argument skips the tail of an occurrence whose
   replacement has already been emitted. -/
def listReplaceAux (pat rep : List Char) : List Char → Nat → List Char
  | [], _ => []
  | _ :: rest, k + 1 => listReplaceAux pat rep rest k
  | a :: rest, 0 =>
    if pat.isPrefixOf (a :: rest) then
      rep ++ listReplaceAux pat rep rest (pat.length - 1)
    else
      a :: listReplaceAux pat rep rest 0

def listReplace (pat rep s : List Char) : List Char :=
  if pat = [] then s else listReplaceAux pat rep s 0

def replaceStr (s pat rep : String) : String := ⟨listReplace pat.data rep.data s.data⟩

/- col.replace(' MiB', ' GB').replace('_MiB', '_GB').replace('MiB', '_GB') -/
def mibNewName (c : String) : String :=
  replaceStr (replaceStr (replaceStr c " MiB" " GB") "_MiB" "_GB") "MiB" "_GB"

/- col.replace(' MB', ' GB').replace('_MB', '_GB').replace('MB', '_GB') -/
def mbNewName (c : String) : String :=
  replaceStr (replaceStr (replaceStr c " MB" " GB") "_MB" "_GB") "MB" "_GB"

/- Round to the nearest integer: floor(q + 1/2), computed on num/den so that
   it evaluates inside the kernel. -/
def qRound (q : ℚ) : ℤ := Int.fdiv (q.num * 2 + q.den) (q.den * 2)

/- Series.round(2). -/
def round2 (q : ℚ) : ℚ := (qRound (q * 100) : ℚ) / 100

/- (series / d).round(2): NaN cells stay NaN. -/
def divRound (d : ℚ) : Value → Value
  | .num q => .num (round2 (q / d))
  | v => v

/- Columns matching the MiB scan: 'mib' in col.lower() and numeric dtype. -/
def mibCols (t : Table) : List String :=
  t.cols.filter (fun c => strContains (lowerStr c) "mib" && isNumericCol t c)

/- Columns matching the MB scan: 'mb' in col.lower(), 'mbps' not in
   col.lower(), and numeric dtype. -/
def mbCols (t : Table) : List String :=
  t.cols.filter (fun c =>
    strContains (lowerStr c) "mb" && !strContains (lowerStr c) "mbps" && isNumericCol t c)

/- One conversion step: converted_df[new] = (converted_df[col] / d).round(2)
   followed by converted_df.drop(columns=[col]). -/
def convertOne (d : ℚ) (newName : String → String) (t : Table) (c : String) : Table :=
  (t.setCol (newName c) ((t.colValues c).map (divRound d))).dropCol c

/- convert_mib_to_gb: the MiB pass over the columns found up front, then the
   MB pass over the columns found after the MiB pass. -/
def convert_mib_to_gb (t : Table) : Table :=
  let t1 := (mibCols t).foldl (convertOne 1024 mibNewName) t
  (mbCols t1).foldl (convertOne 1000 mbNewName) t1

/- ---------- Aggregator ---------- -/

def vmUUID : String := "VM UUID"

/- Series.dropna(): the non-null values, in order. -/
def nonNull (vs : List Value) : List Value := vs.filter (fun v => v ≠ Value.null)

/- Series.unique(): deduplicate keeping the first occurrence of each value. -/
def dedupFirstAux [DecidableEq α] (seen : List α) : List α → List α
  | [] => []
  | a :: as => if a ∈ seen then dedupFirstAux seen as
               else a :: dedupFirstAux (a :: seen) as

def dedupFirst [DecidableEq α] (l : List α) : List α := dedupFirstAux [] l

/- Specification-side deduplication, written from the claim's words
   "order = first-seen, duplicates removed": keep each value's first
   occurrence and delete its later duplicates. Compared against the
   implementation-side dedupFirst. -/
def firstSeenDedup [DecidableEq α] : List α → List α
  | [] => []
  | a :: as => a :: firstSeenDedup (as.filter (fun x => x ≠ a))
termination_by l => l.length
decreasing_by
  simp only [List.length_cons]
  exact Nat.lt_succ_of_le (List.length_filter_le _ _)

/- GroupBy.first per column: the first non-null value, NaN when none. -/
def firstNonNull (vs : List Value) : Value := (nonNull vs).headD Value.null

/- The aggregation operations appearing in aggregate_vm_data's agg_dict:
   named pandas reductions plus the two lambdas of the source. -/
inductive AggOp where
  | sum
  | mean
  | count
  | first
  | concatUnique
  | defaultText
deriving DecidableEq, Repr

/- self.aggregation_rules: exact-name rule table from __init__. -/
def aggregation_rules (c : String) : Option AggOp :=
  if c ∈ ["Capacity MiB", "In Use MiB", "Free MiB", "Provisioned MiB",
          "VMDK Size MiB", "Size MiB"] then some .sum
  else if c = "Speed Mbps" then some .sum
  else if c ∈ ["Capacity MB", "Consumed MB", "Free MB"] then some .sum
  else if c ∈ ["Num Disks", "Num NICs"] then some .sum
  else if c = "Num Snapshots" then some .count
  else if c ∈ ["Network", "MAC Address", "IP Address", "Disk Path", "Datastore"] then
    some .concatUnique
  else none

/- Keyword fallback for numeric columns without an explicit rule. -/
def sizeWords : List String := ["size", "capacity", "mib", "gb", "mb", "count", "num"]

def numericDefault (c : String) : AggOp :=
  if sizeWords.any (fun w => strContains (lowerStr c) w) then .sum else .mean

/- Identity-style text columns default to 'first'. -/
def identityNames : List String :=
  ["vm", "name", "powerstate", "os", "cluster", "host", "datacenter"]

def textDefault (c : String) : AggOp :=
  if lowerStr c ∈ identityNames then .first else .defaultText

/- agg_dict entry for one column: exact rule first, else type-based default. -/
def resolveOp (t : Table) (c : String) : AggOp :=
  match aggregation_rules c with
  | some op => op
  | none => if isNumericCol t c then numericDefault c else textDefault c

/- ' | '.join(x.dropna().unique()). Joining a non-string raises TypeError,
   modelled as none. -/
def joinUnique (vs : List Value) : Option String :=
  if (dedupFirst (nonNull vs)).all Value.isStr then
    some (String.intercalate " | " ((dedupFirst (nonNull vs)).map Value.strOf))
  else none

/- Apply one aggregation operation to the values of a group. none models a
   raised type error. pandas 'sum' over a non-numeric object column is
   modelled as a failure. -/
def applyOp : AggOp → List Value → Option Value
  | .sum, vs =>
    if (nonNull vs).all Value.isNum then
      some (.num (((nonNull vs).map Value.qOf).sum))
    else none
  | .mean, vs =>
    if (nonNull vs).all Value.isNum then
      if (nonNull vs).length = 0 then some .null
      else some (.num ((((nonNull vs).map Value.qOf).sum) / (nonNull vs).length))
    else none
  | .count, vs => some (.num ((nonNull vs).length : ℚ))
  | .first, vs => some (firstNonNull vs)
  | .concatUnique, vs =>
    match joinUnique vs with
    | some s => some (.str s)
    | none => none
  | .defaultText, vs =>
    if 1 < (nonNull vs).length then
      match joinUnique vs with
      | some s => some (.str s)
      | none => none
    else if 0 < (nonNull vs).length then some (vs.headD .null)
    else some (.str "")

/- df[k].value_counts() counts only non-null key values. -/
def nonNullKeyValues (t : Table) (k : String) : List Value :=
  nonNull (t.colValues k)

/- The distinct non-null keys; groupby drops null keys. pandas emits groups
   in sorted key order; no claim concerns row order, so first-seen order is
   used here. -/
def groupKeys (t : Table) (k : String) : List Value :=
  dedupFirst (nonNullKeyValues t k)

def groupRows (t : Table) (k : String) (v : Value) : List Row :=
  t.rows.filter (fun r => Row.getV r k = v)

/- agg_dict column order: numeric columns then object columns, both in
   DataFrame order, the key column excluded from both. -/
def aggCols (t : Table) (k : String) : List String :=
  t.cols.filter (fun c => c ≠ k && isNumericCol t c) ++
    t.cols.filter (fun c => c ≠ k && !isNumericCol t c)

/- Collect the results of fallible cell computations; any failure aborts the
   whole aggregation, as an exception would. -/
def collectSome : List (Option α) → Option (List α)
  | [] => some []
  | none :: _ => none
  | some a :: os =>
    match collectSome os with
    | some as => some (a :: as)
    | none => none

/- One output row of df.groupby(k).agg(agg_dict).reset_index(). -/
def aggRow (t : Table) (k : String) (v : Value) : Option Row :=
  match collectSome ((aggCols t k).map (fun c =>
      (applyOp (resolveOp t c) ((groupRows t k v).map (fun r => Row.getV r c))).map
        (fun w => (c, w)))) with
  | some cells => some ((k, v) :: cells)
  | none => none

/- df.groupby(k).agg(agg_dict).reset_index(), none when aggregation raises. -/
def aggregated (t : Table) (k : String) : Option Table :=
  match collectSome ((groupKeys t k).map (aggRow t k)) with
  | some rows => some ⟨k :: aggCols t k, rows⟩
  | none => none

/- df.groupby(k).first().reset_index(): per column the first non-null value
   of each group. -/
def groupFirst (t : Table) (k : String) : Table :=
  ⟨k :: t.cols.filter (fun c => c ≠ k),
   (groupKeys t k).map (fun v =>
     (k, v) :: (t.cols.filter (fun c => c ≠ k)).map (fun c =>
       (c, firstNonNull ((groupRows t k v).map (fun r => Row.getV r c)))))⟩

/- aggregate_vm_data. The skip test models vm_counts.max() == 1: at least one
   non-null key and no repeated non-null key. groupby(k).first() is total
   here, so the source's bare final fallback (line 274) is unreachable. -/
def aggregate_vm_data (t : Table) (k : String) : Table :=
  if k ∉ t.cols ∨ t.rows = [] then t
  else if nonNullKeyValues t k ≠ [] ∧ (nonNullKeyValues t k).Nodup then
    convert_mib_to_gb t
  else if aggCols t k = [] then
    convert_mib_to_gb (groupFirst t k)
  else
    match aggregated t k with
    | some t2 => convert_mib_to_gb t2
    | none => convert_mib_to_gb (groupFirst t k)

/- ---------- Merger ---------- -/

/- The Source Loader's output: category names mapped to tables, in insertion
   order (python dict semantics; keys are unique in a real run). -/
abbrev CsvData := List (String × Table)

def lookupTable : CsvData → String → Option Table
  | [], _ => none
  | e :: d, c => if e.1 = c then some e.2 else lookupTable d c

/- The fixed base priority list of merge_all_vm_data. -/
def base_options : List String := ["cpu", "info", "memory", "disk", "network", "tools"]

/- opt in csv_data and not csv_data[opt].empty and 'VM UUID' in columns. -/
def qualifies (data : CsvData) (c : String) : Bool :=
  match lookupTable data c with
  | some t => decide (t.rows ≠ [] ∧ vmUUID ∈ t.cols)
  | none => false

def findBase (data : CsvData) : Option String := base_options.find? (qualifies data)

/- Prefix every non-key column name with '<category>_'. -/
def renameCols (pre : String) (t : Table) : Table :=
  ⟨t.cols.map (fun c => if c = vmUUID then c else pre ++ "_" ++ c),
   t.rows.map (fun r => r.map (fun p =>
     if p.1 = vmUUID then p else (pre ++ "_" ++ p.1, p.2)))⟩

/- result_df.merge(merge_df, on='VM UUID', how='left'): every left row
   survives; matching right rows (pandas also matches NaN keys) contribute
   their non-key columns, and an unmatched left row gets nulls. -/
def leftMerge (l r : Table) : Table :=
  ⟨l.cols ++ r.cols.filter (fun c => c ≠ vmUUID),
   l.rows.flatMap (fun lr =>
     let ms := r.rows.filter (fun rr => Row.getV rr vmUUID = Row.getV lr vmUUID)
     if ms.isEmpty then
       [lr ++ (r.cols.filter (fun c => c ≠ vmUUID)).map (fun c => (c, Value.null))]
     else
       ms.map (fun rr =>
         lr ++ (r.cols.filter (fun c => c ≠ vmUUID)).map (fun c => (c, Row.getV rr c))))⟩

/- One iteration of the merge loop: skip the base, empty tables, tables
   without the key, and tables empty after aggregation. -/
def mergeStep (base : String) (acc : Table) (e : String × Table) : Table :=
  if e.1 = base ∨ e.2.rows = [] ∨ vmUUID ∉ e.2.cols then acc
  else if (aggregate_vm_data e.2 vmUUID).rows = [] then acc
  else leftMerge acc (renameCols e.1 (aggregate_vm_data e.2 vmUUID))

/- merge_all_vm_data: pick the base, aggregate and prefix it, then fold the
   remaining categories in insertion order. An empty table models the fatal
   no-base and empty-base outcomes. -/
def merge_all_vm_data (data : CsvData) : Table :=
  match findBase data with
  | none => ⟨[], []⟩
  | some b =>
    match lookupTable data b with
    | none => ⟨[], []⟩
    | some bt =>
      let r0 := aggregate_vm_data bt vmUUID
      if r0.rows = [] then ⟨[], []⟩
      else data.foldl (mergeStep b) (renameCols b r0)

/- ---------- Output shaper ---------- -/

def priority_patterns : List String :=
  ["cpu_vm", "cpu_cpus", "memory_size gb", "disk_capacity gb",
   "cpu_os according to the configuration file"]

def secondary_patterns : List String := ["cpu_powerstate", "cpu_annotation"]

def fallback_patterns : List String := ["vm", "cpu", "memory", "disk", "powerstate"]

/- Case-insensitive exact matches of a priority pattern. -/
def matchesPat (cols : List String) (p : String) : List String :=
  cols.filter (fun c => lowerStr c = lowerStr p)

/- Essential-mode selection, stage 1: the key first when present, then the
   case-insensitive exact matches of the priority and secondary patterns,
   deduplicated keeping first occurrences (dict.fromkeys). -/
def essentialBase (t : Table) : List String :=
  dedupFirst ((priority_patterns ++ secondary_patterns).foldl
    (fun acc p => acc ++ matchesPat t.cols p)
    (if vmUUID ∈ t.cols then [vmUUID] else []))

/- Stage 2: when fewer than 5 columns matched, widen with substring
   fallback matches, at most 2 new columns per keyword. -/
def essentialWithFallback (t : Table) : List String :=
  if (essentialBase t).length < 5 then
    fallback_patterns.foldl (fun acc p =>
      acc ++ (t.cols.filter (fun c =>
        strContains (lowerStr c) p && decide (c ∉ acc))).take 2)
      (essentialBase t)
  else essentialBase t

/- Stage 3: restrict to columns actually present. -/
def essentialCols (t : Table) : List String :=
  (essentialWithFallback t).filter (fun c => decide (c ∈ t.cols))

/- filter_output_columns: comprehensive mode passes the table through;
   essential mode projects onto the essential column selection. -/
def filter_output_columns (comprehensive : Bool) (t : Table) : Table :=
  if comprehensive then t
  else ⟨essentialCols t,
        t.rows.map (fun r => (essentialCols t).map (fun c => (c, Row.getV r c)))⟩

/- apply_power_filter: keep rows whose power-state column lowercases to
   'poweredon'; non-string cells never match, as in pandas. -/
def apply_power_filter (include_all : Bool) (t : Table) : Table :=
  if include_all || t.rows.isEmpty then t
  else
    match t.cols.find? (fun c => strContains (lowerStr c) "powerstate") with
    | some pc =>
      ⟨t.cols, t.rows.filter (fun r =>
        lowerStr (Value.strOf (Row.getV r pc)) = "poweredon")⟩
    | none => t

/- The Entity Key column of a table, as a list of per-row values. -/
def keyVals (t : Table) : List Value := t.colValues vmUUID

/- Number of rows whose Entity Key equals v. -/
def countKeyRows (t : Table) (v : Value) : Nat :=
  ((keyVals t).filter (fun w => w = v)).length

/- A single numeric column named c holding the values vs. -/
def oneColNum (c : String) (vs : List ℚ) : Table :=
  ⟨[c], vs.map (fun q => [(c, Value.num q)])⟩

/- ---------- String lemmas ---------- -/

theorem isInfixB_iff (pat s : List Char) : isInfixB pat s = true ↔ pat <:+: s := by
  simp only [isInfixB, List.any_eq_true]
  constructor
  · rintro ⟨t, ht, hp⟩
    exact (List.isPrefixOf_iff_prefix.mp hp).isInfix.trans
      ((List.mem_tails _ _).mp ht).isInfix
  · intro h
    obtain ⟨t, hpre, hsuf⟩ := List.infix_iff_prefix_suffix.mp h
    exact ⟨t, (List.mem_tails _ _).mpr hsuf, List.isPrefixOf_iff_prefix.mpr hpre⟩

theorem listReplaceAux_eq_or_rep (pat rep : List Char) :
    ∀ s : List Char,
      listReplaceAux pat rep s 0 = s ∨ rep <:+: listReplaceAux pat rep s 0 := by
  intro s
  induction s with
  | nil => left; rfl
  | cons a rest ih =>
    simp only [listReplaceAux]
    split
    · right
      exact (List.prefix_append rep _).isInfix
    · rcases ih with h | h
      · left; rw [h]
      · right; exact h.trans (List.suffix_cons a _).isInfix

theorem replaceStr_eq_or_rep (s pat rep : String) :
    replaceStr s pat rep = s ∨ rep.data <:+: (replaceStr s pat rep).data := by
  unfold replaceStr listReplace
  split
  · left; rfl
  · rcases listReplaceAux_eq_or_rep pat.data rep.data s.data with h | h
    · left
      show String.mk _ = s
      rw [h]
    · right
      exact h

/- After any replacement by one of the ' GB' / '_GB' forms, the characters
   'G','B' appear contiguously in the result; otherwise the name is
   unchanged. -/
theorem mibNewName_eq_or_GB (c : String) :
    mibNewName c = c ∨ ['G', 'B'] <:+: (mibNewName c).data := by
  have hGB1 : ['G', 'B'] <:+: " GB".data :=
    (isInfixB_iff _ _).mp (by decide)
  have hGB2 : ['G', 'B'] <:+: "_GB".data :=
    (isInfixB_iff _ _).mp (by decide)
  unfold mibNewName
  rcases replaceStr_eq_or_rep (replaceStr (replaceStr c " MiB" " GB") "_MiB" "_GB")
      "MiB" "_GB" with h3 | h3
  · rw [h3]
    rcases replaceStr_eq_or_rep (replaceStr c " MiB" " GB") "_MiB" "_GB" with h2 | h2
    · rw [h2]
      rcases replaceStr_eq_or_rep c " MiB" " GB" with h1 | h1
      · left; rw [h1]
      · right; exact hGB1.trans h1
    · right; exact hGB2.trans h2
  · right; exact hGB2.trans h3

theorem mbNewName_eq_or_GB (c : String) :
    mbNewName c = c ∨ ['G', 'B'] <:+: (mbNewName c).data := by
  have hGB1 : ['G', 'B'] <:+: " GB".data :=
    (isInfixB_iff _ _).mp (by decide)
  have hGB2 : ['G', 'B'] <:+: "_GB".data :=
    (isInfixB_iff _ _).mp (by decide)
  unfold mbNewName
  rcases replaceStr_eq_or_rep (replaceStr (replaceStr c " MB" " GB") "_MB" "_GB")
      "MB" "_GB" with h3 | h3
  · rw [h3]
    rcases replaceStr_eq_or_rep (replaceStr c " MB" " GB") "_MB" "_GB" with h2 | h2
    · rw [h2]
      rcases replaceStr_eq_or_rep c " MB" " GB" with h1 | h1
      · left; rw [h1]
      · right; exact hGB1.trans h1
    · right; exact hGB2.trans h2
  · right; exact hGB2.trans h3

theorem marker_ne_vmUUID (c : String)
    (h : strContains (lowerStr c) "mib" = true ∨ strContains (lowerStr c) "mb" = true) :
    c ≠ vmUUID := by
  intro hc
  subst hc
  rcases h with h | h <;> exact absurd h (by decide)

theorem mibNewName_ne_vmUUID (c : String)
    (h : strContains (lowerStr c) "mib" = true) : mibNewName c ≠ vmUUID := by
  intro he
  rcases mibNewName_eq_or_GB c with hc | hc
  · exact marker_ne_vmUUID c (Or.inl h) (hc ▸ he)
  · rw [he] at hc
    have : isInfixB ['G', 'B'] vmUUID.data = true := (isInfixB_iff _ _).mpr hc
    exact absurd this (by decide)

theorem mbNewName_ne_vmUUID (c : String)
    (h : strContains (lowerStr c) "mb" = true) : mbNewName c ≠ vmUUID := by
  intro he
  rcases mbNewName_eq_or_GB c with hc | hc
  · exact marker_ne_vmUUID c (Or.inr h) (hc ▸ he)
  · rw [he] at hc
    have : isInfixB ['G', 'B'] vmUUID.data = true := (isInfixB_iff _ _).mpr hc
    exact absurd this (by decide)

theorem mem_mibCols {t : Table} {c : String} (h : c ∈ mibCols t) :
    strContains (lowerStr c) "mib" = true := by
  simp only [mibCols, List.mem_filter, Bool.and_eq_true] at h
  exact h.2.1

theorem mem_mbCols {t : Table} {c : String} (h : c ∈ mbCols t) :
    strContains (lowerStr c) "mb" = true := by
  simp only [mbCols, List.mem_filter, Bool.and_eq_true] at h
  exact h.2.1.1

theorem getV_setV_ne (r : Row) (c k : String) (v : Value) (h : c ≠ k) :
    Row.getV (Row.setV r c v) k = Row.getV r k := by
  induction r with
  | nil => simp [Row.setV, Row.getV, h]
  | cons p r ih =>
    by_cases hp : p.1 = c
    · simp [Row.setV, hp, Row.getV, h, hp ▸ h]
    · simp only [Row.setV, if_neg hp, Row.getV]
      by_cases hk : p.1 = k
      · simp [hk]
      · simp [hk, ih]

theorem getV_filter_ne (r : Row) (c k : String) (h : k ≠ c) :
    Row.getV (r.filter (fun p => p.1 ≠ c)) k = Row.getV r k := by
  induction r with
  | nil => rfl
  | cons p r ih =>
    simp only [ne_eq, decide_not] at ih
    by_cases hp : p.1 = c
    · have hk : p.1 ≠ k := by rw [hp]; exact Ne.symm h
      simp [List.filter_cons, Row.getV, hp, hk, h, Ne.symm h, ih]
    · by_cases hk : p.1 = k
      · simp [List.filter_cons, Row.getV, hp, hk, h, ih]
      · simp [List.filter_cons, Row.getV, hp, hk, h, ih]

theorem map_zipWith_eq_map (f : α → β → α) (g : α → γ)
    (h : ∀ a b, g (f a b) = g a) :
    ∀ (l : List α) (l2 : List β), l2.length = l.length →
      (List.zipWith f l l2).map g = l.map g := by
  intro l
  induction l with
  | nil => intro l2 _; rfl
  | cons a l ih =>
    intro l2 hl
    cases l2 with
    | nil => simp at hl
    | cons b l2 =>
      simp only [List.zipWith, List.map, h]
      rw [ih l2 (by simpa using hl)]

theorem keyVals_setCol (t : Table) (n : String) (vs : List Value)
    (hn : n ≠ vmUUID) (hl : vs.length = t.rows.length) :
    keyVals (t.setCol n vs) = keyVals t := by
  simp only [keyVals, Table.setCol, Table.colValues]
  exact map_zipWith_eq_map _ _ (fun r v => getV_setV_ne r n vmUUID v hn) t.rows vs hl

theorem keyVals_dropCol (t : Table) (c : String) (hc : c ≠ vmUUID) :
    keyVals (t.dropCol c) = keyVals t := by
  simp only [keyVals, Table.dropCol, Table.colValues, List.map_map]
  apply List.map_congr_left
  intro r _
  exact getV_filter_ne r c vmUUID (fun he => hc he.symm)

theorem convertOne_rowsLen (d : ℚ) (nn : String → String) (t : Table) (c : String) :
    (convertOne d nn t c).rows.length = t.rows.length := by
  simp [convertOne, Table.dropCol, Table.setCol, Table.colValues]

theorem keyVals_convertOne (d : ℚ) (nn : String → String) (t : Table) (c : String)
    (hc : c ≠ vmUUID) (hn : nn c ≠ vmUUID) :
    keyVals (convertOne d nn t c) = keyVals t := by
  unfold convertOne
  rw [keyVals_dropCol _ _ hc, keyVals_setCol]
  · exact hn
  · simp [Table.colValues]

theorem foldl_convertOne_rowsLen (d : ℚ) (nn : String → String) :
    ∀ (L : List String) (t : Table),
      (L.foldl (convertOne d nn) t).rows.length = t.rows.length := by
  intro L
  induction L with
  | nil => intro t; rfl
  | cons c L ih =>
    intro t
    rw [List.foldl_cons, ih, convertOne_rowsLen]

theorem foldl_convertOne_keyVals (d : ℚ) (nn : String → String) :
    ∀ (L : List String) (t : Table),
      (∀ c ∈ L, c ≠ vmUUID ∧ nn c ≠ vmUUID) →
      keyVals (L.foldl (convertOne d nn) t) = keyVals t := by
  intro L
  induction L with
  | nil => intro t _; rfl
  | cons c L ih =>
    intro t hL
    rw [List.foldl_cons, ih _ (fun x hx => hL x (List.mem_cons_of_mem c hx)),
      keyVals_convertOne d nn t c (hL c (List.mem_cons_self c L)).1
        (hL c (List.mem_cons_self c L)).2]

theorem convert_rowsLen (t : Table) :
    (convert_mib_to_gb t).rows.length = t.rows.length := by
  unfold convert_mib_to_gb
  rw [foldl_convertOne_rowsLen, foldl_convertOne_rowsLen]

theorem convert_keyVals (t : Table) :
    keyVals (convert_mib_to_gb t) = keyVals t := by
  unfold convert_mib_to_gb
  rw [foldl_convertOne_keyVals, foldl_convertOne_keyVals]
  · intro c hc
    have hm := mem_mibCols hc
    exact ⟨marker_ne_vmUUID c (Or.inl hm), mibNewName_ne_vmUUID c hm⟩
  · intro c hc
    have hm := mem_mbCols hc
    exact ⟨marker_ne_vmUUID c (Or.inr hm), mbNewName_ne_vmUUID c hm⟩

theorem headCol_setCol (t : Table) (c : String) (vs : List Value) (k : String)
    (h : t.cols.head? = some k) : (t.setCol c vs).cols.head? = some k := by
  simp only [Table.setCol]
  split
  · exact h
  · cases tc : t.cols with
    | nil => rw [tc] at h; simp at h
    | cons a l => rw [tc] at h; simpa using h

theorem headCol_dropCol (t : Table) (c k : String)
    (h : t.cols.head? = some k) (hk : k ≠ c) :
    (t.dropCol c).cols.head? = some k := by
  simp only [Table.dropCol]
  cases tc : t.cols with
  | nil => rw [tc] at h; simp at h
  | cons a l =>
    rw [tc] at h
    have ha : a = k := by simpa using h
    subst ha
    simp [List.filter_cons, hk]

theorem headCol_convertOne (d : ℚ) (nn : String → String) (t : Table) (c k : String)
    (h : t.cols.head? = some k) (hc : c ≠ k) :
    (convertOne d nn t c).cols.head? = some k :=
  headCol_dropCol _ _ _ (headCol_setCol _ _ _ _ h) (fun he => hc he.symm)

theorem foldl_convertOne_headCol (d : ℚ) (nn : String → String) :
    ∀ (L : List String) (t : Table), (∀ c ∈ L, c ≠ vmUUID) →
      t.cols.head? = some vmUUID →
      (L.foldl (convertOne d nn) t).cols.head? = some vmUUID := by
  intro L
  induction L with
  | nil => intro t _ h; exact h
  | cons c L ih =>
    intro t hL h
    rw [List.foldl_cons]
    exact ih _ (fun x hx => hL x (List.mem_cons_of_mem c hx))
      (headCol_convertOne d nn t c vmUUID h (hL c (List.mem_cons_self c L)))

theorem convert_headCol (t : Table) (h : t.cols.head? = some vmUUID) :
    (convert_mib_to_gb t).cols.head? = some vmUUID := by
  unfold convert_mib_to_gb
  apply foldl_convertOne_headCol
  · intro c hc
    exact marker_ne_vmUUID c (Or.inr (mem_mbCols hc))
  · apply foldl_convertOne_headCol
    · intro c hc
      exact marker_ne_vmUUID c (Or.inl (mem_mibCols hc))
    · exact h

theorem dedupFirstAux_sublist [DecidableEq α] :
    ∀ (l seen : List α), List.Sublist (dedupFirstAux seen l) l := by
  intro l
  induction l with
  | nil => intro seen; exact List.Sublist.refl _
  | cons a as ih =>
    intro seen
    simp only [dedupFirstAux]
    split
    · exact (ih seen).trans (List.sublist_cons_self a as)
    · exact (ih (a :: seen)).cons₂ a

theorem dedupFirstAux_nodup [DecidableEq α] :
    ∀ (l seen : List α),
      (dedupFirstAux seen l).Nodup ∧ ∀ a ∈ dedupFirstAux seen l, a ∉ seen := by
  intro l
  induction l with
  | nil => intro seen; exact ⟨List.nodup_nil, by simp [dedupFirstAux]⟩
  | cons a as ih =>
    intro seen
    simp only [dedupFirstAux]
    split
    · exact ih seen
    · rename_i ha
      constructor
      · refine List.nodup_cons.mpr ⟨fun hmem => ?_, (ih (a :: seen)).1⟩
        exact (ih (a :: seen)).2 a hmem (List.mem_cons_self a seen)
      · intro x hx
        rcases List.mem_cons.mp hx with he | hmem
        · exact he ▸ ha
        · exact fun hs => (ih (a :: seen)).2 x hmem (List.mem_cons_of_mem a hs)

theorem mem_dedupFirstAux [DecidableEq α] :
    ∀ (l seen : List α) (a : α), a ∈ l → a ∉ seen → a ∈ dedupFirstAux seen l := by
  intro l
  induction l with
  | nil => intro seen a ha _; simp at ha
  | cons b as ih =>
    intro seen a ha hs
    simp only [dedupFirstAux]
    split
    · rename_i hb
      rcases List.mem_cons.mp ha with he | hmem
      · exact absurd (he ▸ hb) hs
      · exact ih seen a hmem hs
    · rcases List.mem_cons.mp ha with he | hmem
      · exact he ▸ List.mem_cons_self b _
      · by_cases hab : a = b
        · exact hab ▸ List.mem_cons_self b _
        · exact List.mem_cons_of_mem b
            (ih (b :: seen) a hmem (by simp [hab, hs]))

theorem dedupFirst_nodup [DecidableEq α] (l : List α) : (dedupFirst l).Nodup :=
  (dedupFirstAux_nodup l []).1

theorem dedupFirst_sublist [DecidableEq α] (l : List α) : List.Sublist (dedupFirst l) l :=
  dedupFirstAux_sublist l []

theorem mem_dedupFirst [DecidableEq α] (l : List α) (a : α) :
    a ∈ dedupFirst l ↔ a ∈ l :=
  ⟨fun h => (dedupFirst_sublist l).mem h,
   fun h => mem_dedupFirstAux l [] a h (by simp)⟩

theorem dedupFirstAux_eq_firstSeen [DecidableEq α] :
    ∀ (l seen : List α),
      dedupFirstAux seen l =
        firstSeenDedup (l.filter (fun x => decide (x ∉ seen))) := by
  intro l
  induction l with
  | nil => intro seen; simp [firstSeenDedup, dedupFirstAux]
  | cons a as ih =>
    intro seen
    by_cases ha : a ∈ seen
    · rw [show dedupFirstAux seen (a :: as) = dedupFirstAux seen as from by
        simp [dedupFirstAux, ha]]
      rw [List.filter_cons, show (decide (a ∉ seen)) = false from by simp [ha]]
      simp only [Bool.false_eq_true, if_false]
      exact ih seen
    · rw [show dedupFirstAux seen (a :: as) =
          a :: dedupFirstAux (a :: seen) as from by simp [dedupFirstAux, ha]]
      rw [List.filter_cons, show (decide (a ∉ seen)) = true from by simp [ha]]
      simp only [if_true]
      rw [show firstSeenDedup (a :: as.filter (fun x => decide (x ∉ seen))) =
          a :: firstSeenDedup ((as.filter (fun x => decide (x ∉ seen))).filter
            (fun x => x ≠ a)) from by rw [firstSeenDedup]]
      rw [ih (a :: seen), List.filter_filter]
      have hf : List.filter (fun x => decide (x ∉ a :: seen)) as =
          List.filter (fun x => decide (x ≠ a) && decide (x ∉ seen)) as := by
        apply List.filter_congr
        intro x _
        by_cases hxa : x = a
        · simp [hxa]
        · by_cases hxs : x ∈ seen
          · simp [hxa, hxs]
          · simp [hxa, hxs]
      rw [hf]

theorem dedupFirst_eq_firstSeen [DecidableEq α] (l : List α) :
    dedupFirst l = firstSeenDedup l := by
  unfold dedupFirst
  rw [dedupFirstAux_eq_firstSeen l []]
  congr 1
  simp

theorem length_filter_eq_le_one {l : List Value} (hn : l.Nodup) (v : Value) :
    (l.filter (fun w => w = v)).length ≤ 1 := by
  have hf : (l.filter (fun w => w = v)).Nodup := hn.filter _
  cases hl : l.filter (fun w => w = v) with
  | nil => simp
  | cons a tail =>
    cases tail with
    | nil => simp
    | cons b tb =>
      exfalso
      rw [hl] at hf
      have ha : a = v := by
        have := List.mem_filter.mp (hl ▸ (List.mem_cons_self a (b :: tb) : a ∈ a :: b :: tb))
        simpa using this.2
      have hb : b = v := by
        have := List.mem_filter.mp
          (hl ▸ (List.mem_cons_of_mem a (List.mem_cons_self b tb) : b ∈ a :: b :: tb))
        simpa using this.2
      have : a ∉ b :: tb := (List.nodup_cons.mp hf).1
      exact this (by rw [ha, ← hb]; exact List.mem_cons_self b tb)

theorem filter_eq_nonNull (ks : List Value) (v : Value) (hv : v ≠ Value.null) :
    ks.filter (fun w => w = v) = (nonNull ks).filter (fun w => w = v) := by
  unfold nonNull
  rw [List.filter_filter]
  apply List.filter_congr
  intro w _
  by_cases hw : w = v
  · subst hw; simp [hv]
  · simp [hw]

theorem collectSome_forall {l : List (Option α)} {l2 : List α}
    (h : collectSome l = some l2) :
    List.Forall₂ (fun o a => o = some a) l l2 := by
  induction l generalizing l2 with
  | nil =>
    simp only [collectSome] at h
    cases h
    exact List.Forall₂.nil
  | cons o os ih =>
    cases o with
    | none => simp [collectSome] at h
    | some a =>
      simp only [collectSome] at h
      cases hos : collectSome os with
      | none => rw [hos] at h; simp at h
      | some as =>
        rw [hos] at h
        cases h
        exact List.Forall₂.cons rfl (ih hos)

theorem aggRow_shape {t : Table} {v : Value} {r : Row}
    (h : aggRow t vmUUID v = some r) : ∃ cells, r = (vmUUID, v) :: cells := by
  unfold aggRow at h
  split at h
  · rename_i cells _
    exact ⟨cells, (Option.some.inj h).symm⟩
  · simp at h

theorem forall2_aggRow_keys {t : Table} {ks : List Value} {rows : List Row}
    (h : List.Forall₂ (fun v r => aggRow t vmUUID v = some r) ks rows) :
    rows.map (fun r => Row.getV r vmUUID) = ks := by
  induction h with
  | nil => rfl
  | cons hvr _ ih =>
    obtain ⟨cells, hc⟩ := aggRow_shape hvr
    subst hc
    simp [Row.getV, ih]

theorem keyVals_aggregated {t t2 : Table} (h : aggregated t vmUUID = some t2) :
    keyVals t2 = groupKeys t vmUUID := by
  unfold aggregated at h
  split at h
  · rename_i rows hc
    have h2 := collectSome_forall hc
    rw [List.forall₂_map_left_iff] at h2
    have ht2 := Option.some.inj h
    subst ht2
    exact forall2_aggRow_keys h2
  · simp at h

theorem aggregated_cols {t t2 : Table} (h : aggregated t vmUUID = some t2) :
    t2.cols = vmUUID :: aggCols t vmUUID := by
  unfold aggregated at h
  split at h
  · have ht2 := Option.some.inj h
    subst ht2
    rfl
  · simp at h

theorem aggregated_rows_length {t t2 : Table} (h : aggregated t vmUUID = some t2) :
    t2.rows.length = (groupKeys t vmUUID).length := by
  unfold aggregated at h
  split at h
  · rename_i rows hc
    have h2 := collectSome_forall hc
    have ht2 := Option.some.inj h
    subst ht2
    simpa using h2.length_eq.symm
  · simp at h

theorem map_getV_key_rows (ks : List Value) (f : Value → List (String × Value)) :
    ks.map (fun v => Row.getV ((vmUUID, v) :: f v) vmUUID) = ks := by
  induction ks with
  | nil => rfl
  | cons v ks ih => simp [Row.getV, ih]

theorem keyVals_groupFirst (t : Table) :
    keyVals (groupFirst t vmUUID) = groupKeys t vmUUID := by
  unfold keyVals Table.colValues groupFirst
  rw [List.map_map]
  exact map_getV_key_rows _ _

theorem groupKeys_nodup (t : Table) (k : String) : (groupKeys t k).Nodup :=
  dedupFirst_nodup _

theorem mem_groupKeys_ne_null {t : Table} {k : String} {v : Value}
    (h : v ∈ groupKeys t k) : v ≠ Value.null := by
  unfold groupKeys at h
  have hm := (mem_dedupFirst _ _).mp h
  simp only [nonNullKeyValues, nonNull, List.mem_filter, decide_eq_true_eq] at hm
  exact hm.2

theorem prefixed_ne_vmUUID (pre c : String) : pre ++ "_" ++ c ≠ vmUUID := by
  intro h
  have hd := congrArg String.data h
  rw [String.data_append, String.data_append] at hd
  have hu : ('_' : Char) ∈ vmUUID.data := by
    rw [← hd]
    exact List.mem_append_left _ (List.mem_append_right _ (by simp))
  exact absurd hu (by decide)

theorem getV_renameRow (pre : String) (r : Row) :
    Row.getV (r.map (fun p =>
      if p.1 = vmUUID then p else (pre ++ "_" ++ p.1, p.2))) vmUUID =
    Row.getV r vmUUID := by
  induction r with
  | nil => rfl
  | cons p r ih =>
    by_cases hp : p.1 = vmUUID
    · simp [Row.getV, hp]
    · simp [Row.getV, hp, prefixed_ne_vmUUID pre p.1, ih]

theorem keyVals_renameCols (pre : String) (t : Table) :
    keyVals (renameCols pre t) = keyVals t := by
  unfold keyVals Table.colValues renameCols
  rw [List.map_map]
  apply List.map_congr_left
  intro r _
  exact getV_renameRow pre r

theorem headCol_renameCols (pre : String) (t : Table)
    (h : t.cols.head? = some vmUUID) :
    (renameCols pre t).cols.head? = some vmUUID := by
  unfold renameCols
  cases tc : t.cols with
  | nil => rw [tc] at h; simp at h
  | cons a l =>
    rw [tc] at h
    have ha : a = vmUUID := by simpa using h
    simp [ha]

theorem getV_eq_null_of_keys_ne (l : Row) (k : String)
    (h : ∀ q ∈ l, q.1 ≠ k) : Row.getV l k = Value.null := by
  induction l with
  | nil => rfl
  | cons p l ih =>
    simp only [Row.getV, if_neg (h p (List.mem_cons_self p l))]
    exact ih (fun q hq => h q (List.mem_cons_of_mem p hq))

theorem getV_append_keys_ne (lr ext : Row)
    (h : ∀ q ∈ ext, q.1 ≠ vmUUID) :
    Row.getV (lr ++ ext) vmUUID = Row.getV lr vmUUID := by
  induction lr with
  | nil => simpa using getV_eq_null_of_keys_ne ext vmUUID h
  | cons p lr ih =>
    by_cases hp : p.1 = vmUUID
    · simp [Row.getV, hp]
    · simp [Row.getV, hp, ih]

theorem rightCells_keys_ne (r : Table) (f : String → Value) :
    ∀ q ∈ (r.cols.filter (fun c => c ≠ vmUUID)).map (fun c => (c, f c)),
      q.1 ≠ vmUUID := by
  intro q hq
  simp only [List.mem_map] at hq
  obtain ⟨c, hc, he⟩ := hq
  have := List.of_mem_filter hc
  subst he
  simpa using this

theorem mem_keyVals_leftMerge (l r : Table) (v : Value) :
    v ∈ keyVals (leftMerge l r) ↔ v ∈ keyVals l := by
  unfold keyVals Table.colValues leftMerge
  simp only [List.mem_map, List.mem_flatMap]
  constructor
  · rintro ⟨row, ⟨lr, hlr, hrow⟩, hv⟩
    refine ⟨lr, hlr, ?_⟩
    split at hrow
    · simp only [List.mem_singleton] at hrow
      subst hrow
      rw [getV_append_keys_ne _ _ (rightCells_keys_ne r _)] at hv
      exact hv
    · simp only [List.mem_map] at hrow
      obtain ⟨rr, _, hrw⟩ := hrow
      subst hrw
      rw [getV_append_keys_ne _ _ (rightCells_keys_ne r _)] at hv
      exact hv
  · rintro ⟨lr, hlr, hv⟩
    by_cases hms : (r.rows.filter (fun rr =>
        Row.getV rr vmUUID = Row.getV lr vmUUID)).isEmpty
    · refine ⟨lr ++ (r.cols.filter (fun c => c ≠ vmUUID)).map
        (fun c => (c, Value.null)), ⟨lr, hlr, ?_⟩, ?_⟩
      · rw [if_pos hms]
        simp
      · rw [getV_append_keys_ne _ _ (rightCells_keys_ne r _)]
        exact hv
    · have hne : (r.rows.filter (fun rr =>
          Row.getV rr vmUUID = Row.getV lr vmUUID)) ≠ [] :=
        fun he => hms (by rw [he]; rfl)
      obtain ⟨rr, hrr⟩ := List.exists_mem_of_ne_nil _ hne
      refine ⟨lr ++ (r.cols.filter (fun c => c ≠ vmUUID)).map
        (fun c => (c, Row.getV rr c)), ⟨lr, hlr, ?_⟩, ?_⟩
      · rw [if_neg hms]
        exact List.mem_map_of_mem _ hrr
      · rw [getV_append_keys_ne _ _ (rightCells_keys_ne r _)]
        exact hv

theorem mem_keyVals_mergeStep (b : String) (acc : Table) (e : String × Table)
    (v : Value) : v ∈ keyVals (mergeStep b acc e) ↔ v ∈ keyVals acc := by
  unfold mergeStep
  split
  · exact Iff.rfl
  · split
    · exact Iff.rfl
    · exact mem_keyVals_leftMerge _ _ v

theorem mem_keyVals_foldl_mergeStep (b : String) :
    ∀ (data : CsvData) (acc : Table) (v : Value),
      v ∈ keyVals (data.foldl (mergeStep b) acc) ↔ v ∈ keyVals acc := by
  intro data
  induction data with
  | nil => intro acc v; exact Iff.rfl
  | cons e data ih =>
    intro acc v
    rw [List.foldl_cons]
    exact (ih _ v).trans (mem_keyVals_mergeStep b acc e v)

theorem headCol_leftMerge (l r : Table)
    (h : l.cols.head? = some vmUUID) :
    (leftMerge l r).cols.head? = some vmUUID := by
  unfold leftMerge
  cases tc : l.cols with
  | nil => rw [tc] at h; simp at h
  | cons a cs => rw [tc] at h; simpa using h

theorem headCol_mergeStep (b : String) (acc : Table) (e : String × Table)
    (h : acc.cols.head? = some vmUUID) :
    (mergeStep b acc e).cols.head? = some vmUUID := by
  unfold mergeStep
  split
  · exact h
  · split
    · exact h
    · exact headCol_leftMerge _ _ h

theorem headCol_foldl_mergeStep (b : String) :
    ∀ (data : CsvData) (acc : Table),
      acc.cols.head? = some vmUUID →
      (data.foldl (mergeStep b) acc).cols.head? = some vmUUID := by
  intro data
  induction data with
  | nil => intro acc h; exact h
  | cons e data ih =>
    intro acc h
    rw [List.foldl_cons]
    exact ih _ (headCol_mergeStep b acc e h)

theorem groupKeys_ne_nil {t : Table} (h : nonNullKeyValues t vmUUID ≠ []) :
    groupKeys t vmUUID ≠ [] := by
  unfold groupKeys dedupFirst
  cases hk : nonNullKeyValues t vmUUID with
  | nil => exact absurd hk h
  | cons a l => simp [dedupFirstAux]

theorem rows_ne_of_keys_ne {t : Table} (h : nonNullKeyValues t vmUUID ≠ []) :
    t.rows ≠ [] := by
  intro he
  apply h
  unfold nonNullKeyValues Table.colValues nonNull
  rw [he]
  rfl

theorem aggregate_eq_skip (t : Table) (hcols : vmUUID ∈ t.cols) (hrows : t.rows ≠ [])
    (h : nonNullKeyValues t vmUUID ≠ [] ∧ (nonNullKeyValues t vmUUID).Nodup) :
    aggregate_vm_data t vmUUID = convert_mib_to_gb t := by
  unfold aggregate_vm_data
  rw [if_neg (not_or.mpr ⟨fun hn => hn hcols, hrows⟩), if_pos h]

theorem aggregate_keyVals_group (t : Table) (hcols : vmUUID ∈ t.cols)
    (hrows : t.rows ≠ [])
    (hskip : ¬(nonNullKeyValues t vmUUID ≠ [] ∧ (nonNullKeyValues t vmUUID).Nodup)) :
    keyVals (aggregate_vm_data t vmUUID) = groupKeys t vmUUID := by
  unfold aggregate_vm_data
  rw [if_neg (not_or.mpr ⟨fun hn => hn hcols, hrows⟩), if_neg hskip]
  split
  · rw [convert_keyVals, keyVals_groupFirst]
  · split
    · rename_i t2 ht2
      rw [convert_keyVals, keyVals_aggregated ht2]
    · rw [convert_keyVals, keyVals_groupFirst]

theorem aggregate_headCol_group (t : Table) (hcols : vmUUID ∈ t.cols)
    (hrows : t.rows ≠ [])
    (hskip : ¬(nonNullKeyValues t vmUUID ≠ [] ∧ (nonNullKeyValues t vmUUID).Nodup)) :
    (aggregate_vm_data t vmUUID).cols.head? = some vmUUID := by
  unfold aggregate_vm_data
  rw [if_neg (not_or.mpr ⟨fun hn => hn hcols, hrows⟩), if_neg hskip]
  split
  · exact convert_headCol _ rfl
  · split
    · rename_i t2 ht2
      exact convert_headCol _ (by rw [aggregated_cols ht2]; rfl)
    · exact convert_headCol _ rfl

theorem aggregate_rows_len_group (t : Table) (hcols : vmUUID ∈ t.cols)
    (hrows : t.rows ≠ [])
    (hskip : ¬(nonNullKeyValues t vmUUID ≠ [] ∧ (nonNullKeyValues t vmUUID).Nodup)) :
    (aggregate_vm_data t vmUUID).rows.length = (groupKeys t vmUUID).length := by
  unfold aggregate_vm_data
  rw [if_neg (not_or.mpr ⟨fun hn => hn hcols, hrows⟩), if_neg hskip]
  split
  · rw [convert_rowsLen]
    simp [groupFirst]
  · split
    · rename_i t2 ht2
      rw [convert_rowsLen, aggregated_rows_length ht2]
    · rw [convert_rowsLen]
      simp [groupFirst]

theorem foldl_append_exists {β γ : Type} (F : List γ → β → List γ) :
    ∀ (ps : List β) (acc : List γ),
      ∃ rest, ps.foldl (fun a p => a ++ F a p) acc = acc ++ rest := by
  intro ps
  induction ps with
  | nil => intro acc; exact ⟨[], by simp⟩
  | cons p ps ih =>
    intro acc
    obtain ⟨rest, hr⟩ := ih (acc ++ F acc p)
    exact ⟨F acc p ++ rest, by rw [List.foldl_cons, hr, List.append_assoc]⟩

theorem foldl_matches_exists (cols : List String) :
    ∀ (ps : List String) (acc : List String),
      ∃ rest, ps.foldl (fun a p => a ++ matchesPat cols p) acc = acc ++ rest := by
  intro ps
  induction ps with
  | nil => intro acc; exact ⟨[], by simp⟩
  | cons p ps ih =>
    intro acc
    obtain ⟨rest, hr⟩ := ih (acc ++ matchesPat cols p)
    exact ⟨matchesPat cols p ++ rest, by rw [List.foldl_cons, hr, List.append_assoc]⟩

theorem foldl_fallback_exists (cols : List String) :
    ∀ (ps : List String) (acc : List String),
      ∃ rest, ps.foldl (fun a p =>
          a ++ (cols.filter (fun c =>
            strContains (lowerStr c) p && decide (c ∉ a))).take 2) acc =
        acc ++ rest := by
  intro ps
  induction ps with
  | nil => intro acc; exact ⟨[], by simp⟩
  | cons p ps ih =>
    intro acc
    obtain ⟨rest, hr⟩ := ih
      (acc ++ (cols.filter (fun c =>
        strContains (lowerStr c) p && decide (c ∉ acc))).take 2)
    exact ⟨(cols.filter (fun c =>
        strContains (lowerStr c) p && decide (c ∉ acc))).take 2 ++ rest,
      by rw [List.foldl_cons, hr, List.append_assoc]⟩

theorem essentialBase_head (t : Table) (h : vmUUID ∈ t.cols) :
    ∃ r, essentialBase t = vmUUID :: r := by
  unfold essentialBase
  rw [if_pos h]
  obtain ⟨rest, hr⟩ :=
    foldl_matches_exists t.cols (priority_patterns ++ secondary_patterns) [vmUUID]
  rw [hr, List.singleton_append]
  exact ⟨dedupFirstAux [vmUUID] rest, by simp [dedupFirst, dedupFirstAux]⟩

theorem essentialCols_head (t : Table) (h : vmUUID ∈ t.cols) :
    ∃ r, essentialCols t = vmUUID :: r := by
  obtain ⟨r1, hr1⟩ := essentialBase_head t h
  unfold essentialCols essentialWithFallback
  rw [hr1]
  split
  · obtain ⟨r2, hr2⟩ :=
      foldl_fallback_exists t.cols fallback_patterns (vmUUID :: r1)
    rw [hr2, List.cons_append]
    refine ⟨(r1 ++ r2).filter (fun c => decide (c ∈ t.cols)), ?_⟩
    simp [List.filter_cons, h]
  · refine ⟨r1.filter (fun c => decide (c ∈ t.cols)), ?_⟩
    simp [List.filter_cons, h]

theorem filter_output_headCol (t : Table) (h : vmUUID ∈ t.cols) :
    (filter_output_columns false t).cols.head? = some vmUUID := by
  obtain ⟨r, hr⟩ := essentialCols_head t h
  unfold filter_output_columns
  rw [if_neg (by simp : ¬((false : Bool) = true))]
  show (essentialCols t).head? = some vmUUID
  rw [hr]
  rfl

/- ---------- Claims ---------- -/

/-- C1 counterexample: the claim "at most one row per distinct Entity Key
    value" fails for the null key. A table whose non-null keys are already
    unique takes the skip path (value_counts ignores NaN), so two null-key
    rows both survive aggregation. -/
theorem C1_counterexample :
    countKeyRows (aggregate_vm_data
      ⟨["VM UUID", "A"],
       [[("VM UUID", Value.null), ("A", Value.str "r1")],
        [("VM UUID", Value.null), ("A", Value.str "r2")],
        [("VM UUID", Value.str "a"), ("A", Value.str "r3")]]⟩ vmUUID)
      Value.null = 2 := by decide

/-- C1 (amended): for every input Table containing the Entity Key column,
    the Aggregator's output contains at most one row per distinct non-null
    Entity Key value, on the skip path, the grouped path, and the
    first-per-key error fallback alike. -/
theorem C1_unique_nonnull_keys (t : Table) (hcols : vmUUID ∈ t.cols)
    (v : Value) (hv : v ≠ Value.null) :
    countKeyRows (aggregate_vm_data t vmUUID) v ≤ 1 := by
  by_cases hrows : t.rows = []
  · unfold aggregate_vm_data
    rw [if_pos (Or.inr hrows)]
    unfold countKeyRows keyVals Table.colValues
    rw [hrows]
    simp
  · by_cases hskip :
        nonNullKeyValues t vmUUID ≠ [] ∧ (nonNullKeyValues t vmUUID).Nodup
    · rw [aggregate_eq_skip t hcols hrows hskip]
      unfold countKeyRows
      rw [convert_keyVals, filter_eq_nonNull _ _ hv]
      exact length_filter_eq_le_one hskip.2 v
    · unfold countKeyRows
      rw [aggregate_keyVals_group t hcols hrows hskip]
      exact length_filter_eq_le_one (groupKeys_nodup t vmUUID) v

theorem C1_witness :
    vmUUID ∈ (⟨["VM UUID"], [[("VM UUID", Value.str "a")]]⟩ : Table).cols ∧
    (Value.str "a") ≠ Value.null ∧
    countKeyRows (aggregate_vm_data
      ⟨["VM UUID"], [[("VM UUID", Value.str "a")]]⟩ vmUUID) (Value.str "a") ≤ 1 :=
  ⟨by decide, by decide,
   C1_unique_nonnull_keys _ (by decide) _ (by decide)⟩

/-- C10 counterexample: the claim's trigger "some Entity Key value occurs
    more than once" is satisfied by a duplicated null key, yet the Aggregator
    performs no grouping there (value_counts ignores NaN): the two null-key
    rows are not excluded but pass through. -/
theorem C10_counterexample :
    countKeyRows
      (⟨["VM UUID", "B"],
        [[("VM UUID", Value.null), ("B", Value.str "x")],
         [("VM UUID", Value.null), ("B", Value.str "y")],
         [("VM UUID", Value.str "b"), ("B", Value.str "z")]]⟩ : Table)
      Value.null = 2 ∧
    countKeyRows (aggregate_vm_data
      ⟨["VM UUID", "B"],
       [[("VM UUID", Value.null), ("B", Value.str "x")],
        [("VM UUID", Value.null), ("B", Value.str "y")],
        [("VM UUID", Value.str "b"), ("B", Value.str "z")]]⟩ vmUUID)
      Value.null = 2 := by decide

/-- C10 (amended): whenever the Aggregator performs grouping — that is, the
    non-null Entity Key values are not pairwise distinct, or no non-null key
    exists — every null-key input row is silently excluded from the output;
    whereas when the non-null key values are already unique, the null-key
    rows pass through the skip path, preserving the null-key row count and
    the total row count. -/
theorem C10_null_key_rows (t : Table) (hcols : vmUUID ∈ t.cols)
    (hrows : t.rows ≠ []) :
    (¬(nonNullKeyValues t vmUUID ≠ [] ∧ (nonNullKeyValues t vmUUID).Nodup) →
      countKeyRows (aggregate_vm_data t vmUUID) Value.null = 0) ∧
    ((nonNullKeyValues t vmUUID ≠ [] ∧ (nonNullKeyValues t vmUUID).Nodup) →
      countKeyRows (aggregate_vm_data t vmUUID) Value.null =
        countKeyRows t Value.null ∧
      (aggregate_vm_data t vmUUID).rows.length = t.rows.length) := by
  constructor
  · intro hskip
    unfold countKeyRows
    rw [aggregate_keyVals_group t hcols hrows hskip]
    rw [List.length_eq_zero]
    rw [List.filter_eq_nil_iff]
    intro a ha
    simpa using mem_groupKeys_ne_null ha
  · intro hskip
    rw [aggregate_eq_skip t hcols hrows hskip]
    constructor
    · unfold countKeyRows
      rw [convert_keyVals]
    · exact convert_rowsLen t

theorem C10_witness :
    vmUUID ∈ (⟨["VM UUID"],
      [[("VM UUID", Value.null)], [("VM UUID", Value.null)]]⟩ : Table).cols ∧
    (⟨["VM UUID"],
      [[("VM UUID", Value.null)], [("VM UUID", Value.null)]]⟩ : Table).rows ≠ [] ∧
    countKeyRows (aggregate_vm_data
      ⟨["VM UUID"], [[("VM UUID", Value.null)], [("VM UUID", Value.null)]]⟩ vmUUID)
      Value.null = 0 :=
  ⟨by decide, by decide,
   (C10_null_key_rows _ (by decide) (by decide)).1 (by decide)⟩

/-- C2: for every category mapping with a qualifying base, the Merged
    Table's set of Entity Key values equals the base table's
    post-aggregation key set: left joins add no keys from other categories,
    and skipped or empty categories remove none. -/
theorem C2_merge_key_conservation (data : CsvData) (b : String) (bt : Table)
    (hfb : findBase data = some b) (hlk : lookupTable data b = some bt) :
    (keyVals (merge_all_vm_data data)).toFinset =
      (keyVals (aggregate_vm_data bt vmUUID)).toFinset := by
  simp only [merge_all_vm_data, hfb, hlk]
  split
  · rename_i hr0
    have h2 : keyVals (aggregate_vm_data bt vmUUID) = [] := by
      unfold keyVals Table.colValues
      rw [hr0]
      rfl
    have h1 : keyVals (⟨[], []⟩ : Table) = [] := rfl
    rw [h1, h2]
  · ext v
    simp only [List.mem_toFinset]
    rw [mem_keyVals_foldl_mergeStep, keyVals_renameCols]

theorem C2_witness :
    findBase [("cpu", (⟨["VM UUID"],
        [[("VM UUID", Value.str "a")], [("VM UUID", Value.str "b")]]⟩ : Table)),
      ("nic", ⟨["VM UUID"],
        [[("VM UUID", Value.str "a")], [("VM UUID", Value.str "c")]]⟩)] =
      some "cpu" ∧
    (keyVals (merge_all_vm_data
      [("cpu", ⟨["VM UUID"],
        [[("VM UUID", Value.str "a")], [("VM UUID", Value.str "b")]]⟩),
       ("nic", ⟨["VM UUID"],
        [[("VM UUID", Value.str "a")], [("VM UUID", Value.str "c")]]⟩)])).toFinset =
    (keyVals (aggregate_vm_data
      (⟨["VM UUID"],
        [[("VM UUID", Value.str "a")], [("VM UUID", Value.str "b")]]⟩ : Table)
      vmUUID)).toFinset :=
  ⟨by decide,
   C2_merge_key_conservation
     [("cpu", ⟨["VM UUID"],
       [[("VM UUID", Value.str "a")], [("VM UUID", Value.str "b")]]⟩),
      ("nic", ⟨["VM UUID"],
       [[("VM UUID", Value.str "a")], [("VM UUID", Value.str "c")]]⟩)]
     "cpu"
     ⟨["VM UUID"], [[("VM UUID", Value.str "a")], [("VM UUID", Value.str "b")]]⟩
     (by decide) (by decide)⟩

/-- C8 counterexample: in comprehensive mode, when the base table needs no
    aggregation (unique keys, skip path), the Entity Key column keeps its
    original position in the base table instead of being moved first. -/
theorem C8_counterexample :
    (filter_output_columns true (merge_all_vm_data
      [("cpu", ⟨["VM", "VM UUID"],
        [[("VM", Value.str "v"), ("VM UUID", Value.str "a")]]⟩)])).cols.head? =
      some "cpu_VM" ∧ "cpu_VM" ≠ vmUUID := by decide

/-- C8 (amended): the Entity Key column is first whenever the base table was
    actually grouped (groupby and its reset_index put the key first, and the
    merge loop only appends columns), and in column-filtered (essential)
    mode whenever the key is present; in comprehensive mode with an
    ungrouped base the key keeps its base-table position. -/
theorem C8_key_first (data : CsvData) (b : String) (bt : Table)
    (hfb : findBase data = some b) (hlk : lookupTable data b = some bt)
    (hdup : ¬ (nonNullKeyValues bt vmUUID).Nodup) :
    (merge_all_vm_data data).cols.head? = some vmUUID ∧
    (∀ t : Table, vmUUID ∈ t.cols →
      (filter_output_columns false t).cols.head? = some vmUUID) := by
  refine ⟨?_, fun t ht => filter_output_headCol t ht⟩
  have hq := List.find?_some hfb
  unfold qualifies at hq
  rw [hlk] at hq
  rw [decide_eq_true_eq] at hq
  have hcols : vmUUID ∈ bt.cols := hq.2
  have hrows : bt.rows ≠ [] := hq.1
  have hskip : ¬(nonNullKeyValues bt vmUUID ≠ [] ∧
      (nonNullKeyValues bt vmUUID).Nodup) := fun h => hdup h.2
  have hks_ne : nonNullKeyValues bt vmUUID ≠ [] :=
    fun he => hdup (he ▸ List.nodup_nil)
  have hhead := aggregate_headCol_group bt hcols hrows hskip
  have hlen := aggregate_rows_len_group bt hcols hrows hskip
  have hr0 : (aggregate_vm_data bt vmUUID).rows ≠ [] := by
    intro he
    rw [he] at hlen
    exact groupKeys_ne_nil hks_ne (List.length_eq_zero.mp hlen.symm)
  simp only [merge_all_vm_data, hfb, hlk]
  rw [if_neg hr0]
  exact headCol_foldl_mergeStep b data _ (headCol_renameCols b _ hhead)

theorem C8_witness :
    findBase [("cpu", (⟨["VM", "VM UUID"],
      [[("VM", Value.str "v1"), ("VM UUID", Value.str "a")],
       [("VM", Value.str "v2"), ("VM UUID", Value.str "a")]]⟩ : Table))] =
      some "cpu" ∧
    (merge_all_vm_data
      [("cpu", ⟨["VM", "VM UUID"],
        [[("VM", Value.str "v1"), ("VM UUID", Value.str "a")],
         [("VM", Value.str "v2"), ("VM UUID", Value.str "a")]]⟩)]).cols.head? =
      some vmUUID :=
  ⟨by decide,
   (C8_key_first
     [("cpu", ⟨["VM", "VM UUID"],
       [[("VM", Value.str "v1"), ("VM UUID", Value.str "a")],
        [("VM", Value.str "v2"), ("VM UUID", Value.str "a")]]⟩)]
     "cpu"
     ⟨["VM", "VM UUID"],
      [[("VM", Value.str "v1"), ("VM UUID", Value.str "a")],
       [("VM", Value.str "v2"), ("VM UUID", Value.str "a")]]⟩
     (by decide) (by decide) (by decide)).1⟩

/-- C4: the Merger selects as base the FIRST category of the fixed priority
    list ['cpu','info','memory','disk','network','tools'] that is present,
    non-empty and key-bearing: for each category an iff states that it is
    chosen exactly when it qualifies and every earlier category does not;
    when none of the six qualifies — even if other key-bearing tables exist
    in the mapping — the merge returns the empty result. -/
theorem C4_base_selection (data : CsvData) :
    ((findBase data = some "cpu" ↔ qualifies data "cpu" = true) ∧
     (findBase data = some "info" ↔
       qualifies data "cpu" = false ∧ qualifies data "info" = true) ∧
     (findBase data = some "memory" ↔
       qualifies data "cpu" = false ∧ qualifies data "info" = false ∧
       qualifies data "memory" = true) ∧
     (findBase data = some "disk" ↔
       qualifies data "cpu" = false ∧ qualifies data "info" = false ∧
       qualifies data "memory" = false ∧ qualifies data "disk" = true) ∧
     (findBase data = some "network" ↔
       qualifies data "cpu" = false ∧ qualifies data "info" = false ∧
       qualifies data "memory" = false ∧ qualifies data "disk" = false ∧
       qualifies data "network" = true) ∧
     (findBase data = some "tools" ↔
       qualifies data "cpu" = false ∧ qualifies data "info" = false ∧
       qualifies data "memory" = false ∧ qualifies data "disk" = false ∧
       qualifies data "network" = false ∧ qualifies data "tools" = true) ∧
     (findBase data = none ↔
       qualifies data "cpu" = false ∧ qualifies data "info" = false ∧
       qualifies data "memory" = false ∧ qualifies data "disk" = false ∧
       qualifies data "network" = false ∧ qualifies data "tools" = false)) ∧
    (∀ c : String, findBase data = some c →
      c ∈ base_options ∧ qualifies data c = true) ∧
    (findBase data = none → merge_all_vm_data data = ⟨[], []⟩) := by
  refine ⟨?_, ?_, ?_⟩
  · unfold findBase base_options
    cases h1 : qualifies data "cpu" <;>
      cases h2 : qualifies data "info" <;>
      cases h3 : qualifies data "memory" <;>
      cases h4 : qualifies data "disk" <;>
      cases h5 : qualifies data "network" <;>
      cases h6 : qualifies data "tools" <;>
      simp only [List.find?, h1, h2, h3, h4, h5, h6] <;>
      decide
  · intro c hc
    unfold findBase at hc
    exact ⟨List.mem_of_find?_eq_some hc, List.find?_some hc⟩
  · intro h
    unfold merge_all_vm_data
    rw [h]

theorem C4_witness :
    findBase [("snapshot", (⟨["VM UUID"],
        [[("VM UUID", Value.str "a")]]⟩ : Table))] = none ∧
    merge_all_vm_data
      [("snapshot", ⟨["VM UUID"], [[("VM UUID", Value.str "a")]]⟩)] = ⟨[], []⟩ ∧
    vmUUID ∈ (⟨["VM UUID"], [[("VM UUID", Value.str "a")]]⟩ : Table).cols :=
  ⟨by decide,
   (C4_base_selection
     [("snapshot", ⟨["VM UUID"], [[("VM UUID", Value.str "a")]]⟩)]).2.2
     (by decide),
   by decide⟩

theorem conv_noop (t : Table) (h1 : mibCols t = []) (h2 : mbCols t = []) :
    convert_mib_to_gb t = t := by
  unfold convert_mib_to_gb
  rw [h1, List.foldl_nil]
  show List.foldl (convertOne 1000 mbNewName) t (mbCols t) = t
  rw [h2, List.foldl_nil]

theorem zipWith_map_same (f : β → γ → δ) (g : α → β) (h : α → γ) :
    ∀ vs : List α,
      List.zipWith f (vs.map g) (vs.map h) = vs.map (fun v => f (g v) (h v)) := by
  intro vs
  induction vs with
  | nil => rfl
  | cons v vs ih => simp [ih]

theorem colValues_oneColNum (c : String) (vs : List ℚ) :
    (oneColNum c vs).colValues c = vs.map Value.num := by
  simp [oneColNum, Table.colValues, List.map_map, Row.getV]

theorem isNumericCol_oneColNum (c : String) (vs : List ℚ) :
    isNumericCol (oneColNum c vs) c = true := by
  rw [isNumericCol, colValues_oneColNum]
  simp [List.all_eq_true, Value.isNumOrNull]

theorem mibCols_oneColNum_pos (c : String) (vs : List ℚ)
    (hm : strContains (lowerStr c) "mib" = true) :
    mibCols (oneColNum c vs) = [c] := by
  show List.filter _ [c] = [c]
  rw [List.filter_singleton]
  simp [hm, isNumericCol_oneColNum]

theorem mibCols_oneColNum_neg (c : String) (vs : List ℚ)
    (hm : strContains (lowerStr c) "mib" = false) :
    mibCols (oneColNum c vs) = [] := by
  show List.filter _ [c] = []
  rw [List.filter_singleton]
  simp [hm]

theorem mbCols_oneColNum_pos (c : String) (vs : List ℚ)
    (hm : strContains (lowerStr c) "mb" = true)
    (hps : strContains (lowerStr c) "mbps" = false) :
    mbCols (oneColNum c vs) = [c] := by
  show List.filter _ [c] = []  ++ [c]
  rw [List.filter_singleton]
  simp [hm, hps, isNumericCol_oneColNum]

theorem mbCols_oneColNum_neg (c : String) (vs : List ℚ)
    (hm : strContains (lowerStr c) "mb" = false) :
    mbCols (oneColNum c vs) = [] := by
  show List.filter _ [c] = []
  rw [List.filter_singleton]
  simp [hm]

theorem convertOne_oneCol (d : ℚ) (nn : String → String) (c : String)
    (vs : List ℚ) (hne : nn c ≠ c) :
    convertOne d nn (oneColNum c vs) c =
      oneColNum (nn c) (vs.map (fun q => round2 (q / d))) := by
  unfold convertOne
  rw [colValues_oneColNum]
  unfold Table.setCol Table.dropCol oneColNum
  congr 1
  · simp [List.filter_cons, hne, fun h : nn c = c => hne h]
  · rw [List.map_map, zipWith_map_same]
    rw [List.map_map, List.map_map]
    apply List.map_congr_left
    intro q _
    have hcn : ¬ (c = nn c) := fun h => hne h.symm
    simp [Row.setV, divRound, hcn, List.filter_cons, hne]

theorem convertOne_oneCol_self (d : ℚ) (nn : String → String) (c : String)
    (vs : List ℚ) (heq : nn c = c) :
    convertOne d nn (oneColNum c vs) c = ⟨[], vs.map (fun _ => [])⟩ := by
  unfold convertOne
  rw [colValues_oneColNum, heq]
  unfold Table.setCol Table.dropCol oneColNum
  congr 1
  · simp [List.filter_cons]
  · rw [List.map_map, zipWith_map_same]
    rw [List.map_map]
    apply List.map_congr_left
    intro q _
    simp [Row.setV, divRound, List.filter_cons]

theorem convert_oneCol_mib (c : String) (vs : List ℚ)
    (hm : strContains (lowerStr c) "mib" = true)
    (hne : mibNewName c ≠ c)
    (hmbn : strContains (lowerStr (mibNewName c)) "mb" = false) :
    convert_mib_to_gb (oneColNum c vs) =
      oneColNum (mibNewName c) (vs.map (fun q => round2 (q / 1024))) := by
  unfold convert_mib_to_gb
  rw [mibCols_oneColNum_pos c vs hm, List.foldl_cons, List.foldl_nil,
    convertOne_oneCol 1024 mibNewName c vs hne]
  show List.foldl (convertOne 1000 mbNewName)
      (oneColNum (mibNewName c) (vs.map (fun q => round2 (q / 1024))))
      (mbCols (oneColNum (mibNewName c) (vs.map (fun q => round2 (q / 1024))))) = _
  rw [mbCols_oneColNum_neg _ _ hmbn, List.foldl_nil]

theorem convert_oneCol_mb (c : String) (vs : List ℚ)
    (hmib : strContains (lowerStr c) "mib" = false)
    (hm : strContains (lowerStr c) "mb" = true)
    (hps : strContains (lowerStr c) "mbps" = false)
    (hne : mbNewName c ≠ c) :
    convert_mib_to_gb (oneColNum c vs) =
      oneColNum (mbNewName c) (vs.map (fun q => round2 (q / 1000))) := by
  unfold convert_mib_to_gb
  rw [mibCols_oneColNum_neg c vs hmib, List.foldl_nil]
  show List.foldl (convertOne 1000 mbNewName) (oneColNum c vs)
      (mbCols (oneColNum c vs)) = _
  rw [mbCols_oneColNum_pos c vs hm hps, List.foldl_cons, List.foldl_nil,
    convertOne_oneCol 1000 mbNewName c vs hne]

/-- C3 (code evaluated at the failing input): a grouped table whose
    'Network' column is numeric makes the concat-unique rule raise, so the
    fallback runs; groupby(k).first() returns the first NON-NULL value per
    column — here 'Info' comes from the second row ("hello"), not from the
    first row observed (null), contradicting the claim and the code's own
    log message. The run is not aborted: a table is still produced. -/
theorem C3_fallback_eval :
    aggregate_vm_data
      ⟨["VM UUID", "Network", "Info"],
       [[("VM UUID", Value.str "a"), ("Network", Value.num 1),
         ("Info", Value.null)],
        [("VM UUID", Value.str "a"), ("Network", Value.num 2),
         ("Info", Value.str "hello")]]⟩ vmUUID =
    ⟨["VM UUID", "Network", "Info"],
     [[("VM UUID", Value.str "a"), ("Network", Value.num 1),
       ("Info", Value.str "hello")]]⟩ := by decide

/-- C5 counterexample: the derived output name is NOT the same for the
    space and underscore separator styles - 'Size MiB' becomes 'Size GB'
    while 'Size_MiB' becomes 'Size_GB'. -/
theorem C5_counterexample :
    (convert_mib_to_gb ⟨["Size MiB"], [[("Size MiB", Value.null)]]⟩).cols =
      ["Size GB"] ∧
    (convert_mib_to_gb ⟨["Size_MiB"], [[("Size_MiB", Value.null)]]⟩).cols =
      ["Size_GB"] ∧
    ("Size GB" : String) ≠ "Size_GB" := by decide

/-- C5 (amended): for a Table whose single numeric column carries a unit
    marker: an exact-case MiB-marked column whose rewritten name does not
    case-insensitively re-match the MB scan is replaced by value / 1024
    rounded to 2 decimals under the rewritten name, the original removed;
    an exact-case MB-marked column (no 'mbps' in the name) with a changed
    rewritten name is likewise replaced by value / 1000; the derived name
    is separator-DEPENDENT (' MiB' gives ' GB' while '_MiB' and bare 'MiB'
    give '_GB'); a column such as 'Comb MiB' whose rewritten name 'Comb GB'
    still matches the MB scan is converted and then dropped by the same
    pass; throughput (Mbps) and non-numeric columns pass through
    unchanged. -/
theorem C5_unit_normalizer :
    (∀ (c : String) (vs : List ℚ),
      strContains (lowerStr c) "mib" = true →
      mibNewName c ≠ c →
      strContains (lowerStr (mibNewName c)) "mb" = false →
      convert_mib_to_gb (oneColNum c vs) =
        oneColNum (mibNewName c) (vs.map (fun q => round2 (q / 1024)))) ∧
    (∀ (c : String) (vs : List ℚ),
      strContains (lowerStr c) "mib" = false →
      strContains (lowerStr c) "mb" = true →
      strContains (lowerStr c) "mbps" = false →
      mbNewName c ≠ c →
      convert_mib_to_gb (oneColNum c vs) =
        oneColNum (mbNewName c) (vs.map (fun q => round2 (q / 1000)))) ∧
    mibNewName "Size MiB" = "Size GB" ∧
    mibNewName "Size_MiB" = "Size_GB" ∧
    mibNewName "SizeMiB" = "Size_GB" ∧
    ("Size GB" : String) ≠ "Size_GB" ∧
    (∀ vs : List ℚ, convert_mib_to_gb (oneColNum "Comb MiB" vs) =
      ⟨[], vs.map (fun _ => [])⟩) ∧
    (∀ vs : List ℚ, convert_mib_to_gb (oneColNum "Speed Mbps" vs) =
      oneColNum "Speed Mbps" vs) ∧
    (∀ (s : String) (ss : List String),
      convert_mib_to_gb ⟨["Size MiB"],
        (s :: ss).map (fun x => [("Size MiB", Value.str x)])⟩ =
      ⟨["Size MiB"], (s :: ss).map (fun x => [("Size MiB", Value.str x)])⟩) := by
  refine ⟨?_, ?_, by decide, by decide, by decide, by decide, ?_, ?_, ?_⟩
  · intro c vs hm hne hmbn
    exact convert_oneCol_mib c vs hm hne hmbn
  · intro c vs hmib hm hps hne
    exact convert_oneCol_mb c vs hmib hm hps hne
  · intro vs
    unfold convert_mib_to_gb
    rw [mibCols_oneColNum_pos "Comb MiB" vs (by decide), List.foldl_cons,
      List.foldl_nil, convertOne_oneCol 1024 mibNewName "Comb MiB" vs (by decide)]
    show List.foldl (convertOne 1000 mbNewName)
        (oneColNum (mibNewName "Comb MiB") (vs.map (fun q => round2 (q / 1024))))
        (mbCols (oneColNum (mibNewName "Comb MiB")
          (vs.map (fun q => round2 (q / 1024))))) = _
    rw [show mibNewName "Comb MiB" = "Comb GB" from by decide]
    rw [mbCols_oneColNum_pos "Comb GB" _ (by decide) (by decide), List.foldl_cons,
      List.foldl_nil,
      convertOne_oneCol_self 1000 mbNewName "Comb GB" _ (by decide)]
    simp [List.map_map, Function.comp_def]
  · intro vs
    apply conv_noop
    · exact mibCols_oneColNum_neg _ _ (by decide)
    · show List.filter _ ["Speed Mbps"] = []
      rw [List.filter_singleton]
      simp [show strContains (lowerStr "Speed Mbps") "mbps" = true from by decide]
  · intro s ss
    have hnum : isNumericCol
        ⟨["Size MiB"], (s :: ss).map (fun x => [("Size MiB", Value.str x)])⟩
        "Size MiB" = false := by
      simp [isNumericCol, Table.colValues, Row.getV, Value.isNumOrNull]
    simp only [List.map_cons] at hnum
    apply conv_noop
    · show List.filter _ ["Size MiB"] = []
      rw [List.filter_singleton]
      simp [hnum, show strContains (lowerStr "Size MiB") "mib" = true from by decide]
    · show List.filter _ ["Size MiB"] = []
      rw [List.filter_singleton]
      simp [show strContains (lowerStr "Size MiB") "mb" = false from by decide]

theorem C5_witness :
    strContains (lowerStr "Size MiB") "mib" = true ∧
    mibNewName "Size MiB" ≠ "Size MiB" ∧
    strContains (lowerStr (mibNewName "Size MiB")) "mb" = false ∧
    convert_mib_to_gb (oneColNum "Size MiB" [])
      = oneColNum (mibNewName "Size MiB")
          (([] : List ℚ).map (fun q => round2 (q / 1024))) :=
  ⟨by decide, by decide, by decide,
   C5_unit_normalizer.1 "Size MiB" [] (by decide) (by decide) (by decide)⟩

/-- C6 counterexample: unit normalization is not idempotent. A numeric
    column 'Bomb MB' becomes 'Bomb GB', whose lowercase name still contains
    'mb'; a second pass converts it again under an unchanged name and drops
    it entirely. -/
theorem C6_counterexample :
    convert_mib_to_gb ⟨["Bomb MB"], [[("Bomb MB", Value.null)]]⟩ =
      ⟨["Bomb GB"], [[("Bomb GB", Value.null)]]⟩ ∧
    convert_mib_to_gb (convert_mib_to_gb
      ⟨["Bomb MB"], [[("Bomb MB", Value.null)]]⟩) = ⟨[], [[]]⟩ ∧
    convert_mib_to_gb (convert_mib_to_gb
      ⟨["Bomb MB"], [[("Bomb MB", Value.null)]]⟩) ≠
      convert_mib_to_gb ⟨["Bomb MB"], [[("Bomb MB", Value.null)]]⟩ := by decide

/-- C6 (amended): a Table with no matching columns passes through the Unit
    Normalizer unchanged, and hence a second pass is a no-op whenever the
    first pass's output contains no matching column; running twice is NOT
    a no-op in general (see the counterexample, where the first pass's
    output still contains a convertible column). -/
theorem C6_idempotent_when_clean (t : Table) :
    (mibCols t = [] → mbCols t = [] → convert_mib_to_gb t = t) ∧
    (mibCols (convert_mib_to_gb t) = [] → mbCols (convert_mib_to_gb t) = [] →
      convert_mib_to_gb (convert_mib_to_gb t) = convert_mib_to_gb t) :=
  ⟨conv_noop t, conv_noop (convert_mib_to_gb t)⟩

theorem C6_witness :
    mibCols (⟨["VM"], [[("VM", Value.str "v")]]⟩ : Table) = [] ∧
    mbCols (⟨["VM"], [[("VM", Value.str "v")]]⟩ : Table) = [] ∧
    convert_mib_to_gb ⟨["VM"], [[("VM", Value.str "v")]]⟩ =
      ⟨["VM"], [[("VM", Value.str "v")]]⟩ :=
  ⟨by decide, by decide,
   (C6_idempotent_when_clean ⟨["VM"], [[("VM", Value.str "v")]]⟩).1
     (by decide) (by decide)⟩

theorem dedup_nonNull_str {vs : List Value}
    (hvs : ∀ v ∈ vs, v = Value.null ∨ v.isStr = true) :
    ∀ x ∈ dedupFirst (nonNull vs), ∃ s, x = Value.str s := by
  intro x hx
  have hxm : x ∈ nonNull vs := (mem_dedupFirst _ _).mp hx
  have hxv : x ∈ vs := List.mem_of_mem_filter hxm
  have hxn : x ≠ Value.null := by
    have h2 := List.of_mem_filter hxm
    simpa using h2
  rcases hvs x hxv with h | h
  · exact absurd h hxn
  · cases x with
    | str s => exact ⟨s, rfl⟩
    | num q => simp [Value.isStr] at h
    | null => exact absurd rfl hxn

/-- C7: the concat-unique operation — the rule the Aggregator assigns to
    the Network, MAC Address, IP Address, Disk Path and Datastore columns —
    equals joining, with the separator ' | ', the group's values after the
    specification-side first-seen deduplication (duplicates removed, nulls
    ignored, first-seen order), and yields the empty string rather than
    null when the group has no non-null values; on ["x", "x", "y", null] it
    yields "x | y", and on the order-discriminating ["x", "y", "x", null]
    it yields "x | y" (first-seen), not "y | x". -/
theorem C7_concat_unique :
    (∀ vs : List Value, (∀ v ∈ vs, v = Value.null ∨ v.isStr = true) →
      applyOp AggOp.concatUnique vs =
        some (Value.str (String.intercalate " | "
          ((firstSeenDedup (nonNull vs)).map Value.strOf)))) ∧
    (∀ vs : List Value, nonNull vs = [] →
      applyOp AggOp.concatUnique vs = some (Value.str "")) ∧
    aggregation_rules "Network" = some AggOp.concatUnique ∧
    applyOp AggOp.concatUnique
      [Value.str "x", Value.str "x", Value.str "y", Value.null] =
      some (Value.str "x | y") ∧
    applyOp AggOp.concatUnique
      [Value.str "x", Value.str "y", Value.str "x", Value.null] =
      some (Value.str "x | y") := by
  refine ⟨?_, ?_, by decide, by decide, by decide⟩
  · intro vs hvs
    have hstr := dedup_nonNull_str hvs
    have hall : (dedupFirst (nonNull vs)).all Value.isStr = true := by
      rw [List.all_eq_true]
      intro x hx
      obtain ⟨s, rfl⟩ := hstr x hx
      rfl
    have hj : joinUnique vs =
        some (String.intercalate " | "
          ((dedupFirst (nonNull vs)).map Value.strOf)) := by
      simp [joinUnique, hall]
    simp only [applyOp, hj]
    rw [dedupFirst_eq_firstSeen]
  · intro vs h
    simp only [applyOp, joinUnique, h]
    decide

theorem C7_witness :
    (∀ v ∈ [Value.str "a", Value.null], v = Value.null ∨ v.isStr = true) ∧
    applyOp AggOp.concatUnique [Value.str "a", Value.null] =
      some (Value.str (String.intercalate " | "
        ((firstSeenDedup (nonNull [Value.str "a", Value.null])).map
          Value.strOf))) ∧
    applyOp AggOp.concatUnique [Value.null] = some (Value.str "") :=
  ⟨by decide,
   C7_concat_unique.1 [Value.str "a", Value.null] (by decide),
   C7_concat_unique.2.1 [Value.null] (by decide)⟩
